import Mathlib

/-!
# Verification of the githeat heatmap pipeline

A shallow embedding of `githeat.py`: the intensity normalizer (`normalize`),
the grid builder (`graph_block`), the contribution aggregator and the window
calculator from `main`, together with theorems about the properties the
design document states for them.

Calendar dates are modelled by a `Date` structure carrying year, month and
day, with the proleptic Gregorian rules used by Python's `datetime.date`
(`ord` below is exactly `datetime.date.toordinal`).  Python float counts are
modelled by exact rationals; the operations the program performs on them
(increments by one, min, max, subtraction, division, `math.ceil`) are the
same functions on `ℚ`.
-/

namespace Githeat

/-- A calendar date, mirroring `datetime.date`. -/
structure Date where
  year : Nat
  month : Nat
  day : Nat
  deriving DecidableEq, Repr

/-- Gregorian leap-year rule (`calendar.isleap`). -/
def isLeap (y : Nat) : Bool :=
  (y % 4 == 0 && y % 100 != 0) || y % 400 == 0

/-- Number of days in month `m` of year `y` (`calendar.monthrange(y, m)[1]`). -/
def daysInMonth (y : Nat) (m : Nat) : Nat :=
  match m with
  | 1 => 31
  | 2 => if isLeap y then 29 else 28
  | 3 => 31
  | 4 => 30
  | 5 => 31
  | 6 => 30
  | 7 => 31
  | 8 => 31
  | 9 => 30
  | 10 => 31
  | 11 => 30
  | 12 => 31
  | _ => 0

/-- Days of year `y` that precede month `m`. -/
def daysBeforeMonth (y : Nat) (m : Nat) : Nat :=
  let leapAdd : Nat := if 2 < m && isLeap y then 1 else 0
  (match m with
   | 1 => 0
   | 2 => 31
   | 3 => 59
   | 4 => 90
   | 5 => 120
   | 6 => 151
   | 7 => 181
   | 8 => 212
   | 9 => 243
   | 10 => 273
   | 11 => 304
   | 12 => 334
   | _ => 0) + leapAdd

/-- Number of leap years in `[1, k]`. -/
def leapCount (k : Nat) : Nat :=
  k / 4 - k / 100 + k / 400

/-- Proleptic-Gregorian ordinal of a date: the value of
`datetime.date(y, m, d).toordinal()`, so `ord ⟨1, 1, 1⟩ = 1`.
Differences of ordinals model `datetime.timedelta` subtraction. -/
def ord (t : Date) : Nat :=
  365 * (t.year - 1) + leapCount (t.year - 1) + daysBeforeMonth t.year t.month + t.day

/-- The date is a real calendar date (what `datetime.date` enforces). -/
def Valid (t : Date) : Prop :=
  1 ≤ t.year ∧ 1 ≤ t.month ∧ t.month ≤ 12 ∧ 1 ≤ t.day ∧ t.day ≤ daysInMonth t.year t.month

instance (t : Date) : Decidable (Valid t) :=
  inferInstanceAs (Decidable (_ ∧ _ ∧ _ ∧ _ ∧ _))

/-- The calendar successor of a date (`d + datetime.timedelta(days=1)`). -/
def nextDay (t : Date) : Date :=
  if t.day < daysInMonth t.year t.month then ⟨t.year, t.month, t.day + 1⟩
  else if t.month < 12 then ⟨t.year, t.month + 1, 1⟩
  else ⟨t.year + 1, 1, 1⟩

/-- The calendar predecessor of a date (`d - datetime.timedelta(days=1)`). -/
def prevDay (t : Date) : Date :=
  if 1 < t.day then ⟨t.year, t.month, t.day - 1⟩
  else if 1 < t.month then ⟨t.year, t.month - 1, daysInMonth t.year (t.month - 1)⟩
  else ⟨t.year - 1, 12, 31⟩

/-- `d + datetime.timedelta(days=n)`. -/
def addDays (t : Date) (n : Nat) : Date :=
  nextDay^[n] t

/-- The weekday names in the order used by `graph_block`
(`days = ['Sunday', ..., 'Saturday']`, index 0 = Sunday). -/
def dayNames : List String :=
  ["Sunday", "Monday", "Tuesday", "Wednesday", "Thursday", "Friday", "Saturday"]

/-- Model of `d.strftime("%A")`: ordinal 1 (January 1 of year 1) was a
Monday, so `ord t % 7` indexes `dayNames` with Sunday at 0. -/
def weekdayName (t : Date) : String :=
  dayNames.getD (ord t % 7) ""

/-- Chronological (lexicographic) order on dates: the order `datetime.date`
comparison and `sorted` use. -/
def dateLT (a b : Date) : Prop :=
  a.year < b.year ∨ (a.year = b.year ∧
    (a.month < b.month ∨ (a.month = b.month ∧ a.day < b.day)))

instance (a b : Date) : Decidable (dateLT a b) :=
  inferInstanceAs (Decidable (_ ∨ _ ∧ (_ ∨ _ ∧ _)))

/-! ## The intensity normalizer (`normalize` in the source)

The dictionary is modelled as an association list with rational values; the
return value is `none` when the Python call raises (empty dictionary:
`min()` raises `ValueError`; all values equal: the division by
`range1 = max_value - min_value = 0` raises `ZeroDivisionError`). -/

/-- `min(dictionary.values())` (only meaningful on a non-empty list). -/
def minValue {α : Type} (m : List (α × ℚ)) : ℚ :=
  match m with
  | [] => 0
  | p :: rest => rest.foldl (fun a q => min a q.2) p.2

/-- `max(dictionary.values())` (only meaningful on a non-empty list). -/
def maxValue {α : Type} (m : List (α × ℚ)) : ℚ :=
  match m with
  | [] => 0
  | p :: rest => rest.foldl (fun a q => max a q.2) p.2

/-- The `normalize(dictionary, x, y)` function of the source: rescale every
value to `[0, 1]` by min-max normalization, then to `[x, y]`, taking the
ceiling.  `none` models the arithmetic fault (`ZeroDivisionError` when all
values are equal, `ValueError` on an empty dictionary). -/
def normalize {α : Type} (m : List (α × ℚ)) (x y : ℚ) : Option (List (α × ℤ)) :=
  match m with
  | [] => none
  | _ :: _ =>
    let min_value := minValue m
    let max_value := maxValue m
    let range1 := max_value - min_value
    if range1 = 0 then none
    else
      let m1 := m.map (fun p => (p.1, (p.2 - min_value) / range1))
      let range2 := y - x
      some (m1.map (fun p => (p.1, ⌈p.2 * range2 + x⌉)))

/-! Basic bounds for `minValue` and `maxValue`. -/

theorem foldl_min_le_acc {α : Type} (l : List (α × ℚ)) (a : ℚ) :
    l.foldl (fun a q => min a q.2) a ≤ a := by
  induction l generalizing a with
  | nil => simp
  | cons p rest ih =>
    simp only [List.foldl_cons]
    exact le_trans (ih (min a p.2)) (min_le_left _ _)

theorem foldl_min_le_mem {α : Type} (l : List (α × ℚ)) (a : ℚ) {p : α × ℚ}
    (hp : p ∈ l) : l.foldl (fun a q => min a q.2) a ≤ p.2 := by
  induction l generalizing a with
  | nil => cases hp
  | cons q rest ih =>
    rcases List.mem_cons.mp hp with hq | hp'
    · subst hq
      simp only [List.foldl_cons]
      exact le_trans (foldl_min_le_acc rest _) (min_le_right _ _)
    · exact ih _ hp'

theorem minValue_le {α : Type} {m : List (α × ℚ)} {p : α × ℚ} (hp : p ∈ m) :
    minValue m ≤ p.2 := by
  cases m with
  | nil => cases hp
  | cons q rest =>
    rcases List.mem_cons.mp hp with hq | hp'
    · subst hq; exact foldl_min_le_acc rest p.2
    · exact foldl_min_le_mem rest q.2 hp'

theorem acc_le_foldl_max {α : Type} (l : List (α × ℚ)) (a : ℚ) :
    a ≤ l.foldl (fun a q => max a q.2) a := by
  induction l generalizing a with
  | nil => simp
  | cons p rest ih =>
    simp only [List.foldl_cons]
    exact le_trans (le_max_left _ _) (ih (max a p.2))

theorem mem_le_foldl_max {α : Type} (l : List (α × ℚ)) (a : ℚ) {p : α × ℚ}
    (hp : p ∈ l) : p.2 ≤ l.foldl (fun a q => max a q.2) a := by
  induction l generalizing a with
  | nil => cases hp
  | cons q rest ih =>
    rcases List.mem_cons.mp hp with hq | hp'
    · subst hq
      simp only [List.foldl_cons]
      exact le_trans (le_max_right _ _) (acc_le_foldl_max rest _)
    · exact ih _ hp'

theorem le_maxValue {α : Type} {m : List (α × ℚ)} {p : α × ℚ} (hp : p ∈ m) :
    p.2 ≤ maxValue m := by
  cases m with
  | nil => cases hp
  | cons q rest =>
    rcases List.mem_cons.mp hp with hq | hp'
    · subst hq; exact acc_le_foldl_max rest p.2
    · exact mem_le_foldl_max rest q.2 hp'

theorem normalize_eq_some {α : Type} (m : List (α × ℚ)) (x y : ℚ)
    (hne : m ≠ []) (hlt : minValue m < maxValue m) :
    normalize m x y =
      some (m.map (fun p =>
        (p.1, ⌈(p.2 - minValue m) / (maxValue m - minValue m) * (y - x) + x⌉))) := by
  cases m with
  | nil => exact absurd rfl hne
  | cons q rest =>
    have hr : maxValue (q :: rest) - minValue (q :: rest) ≠ 0 := by
      exact sub_ne_zero_of_ne (ne_of_gt hlt)
    simp only [normalize, hr, if_false, List.map_map]
    rfl

theorem le_foldl_min {α : Type} {c : ℚ} (l : List (α × ℚ)) (a : ℚ)
    (ha : c ≤ a) (hall : ∀ p ∈ l, c ≤ p.2) :
    c ≤ l.foldl (fun a q => min a q.2) a := by
  induction l generalizing a with
  | nil => simpa using ha
  | cons q rest ih =>
    simp only [List.foldl_cons]
    refine ih (min a q.2) (le_min ha (hall q (List.mem_cons_self _ _))) ?_
    exact fun p hp => hall p (List.mem_cons_of_mem _ hp)

theorem foldl_max_le {α : Type} {c : ℚ} (l : List (α × ℚ)) (a : ℚ)
    (ha : a ≤ c) (hall : ∀ p ∈ l, p.2 ≤ c) :
    l.foldl (fun a q => max a q.2) a ≤ c := by
  induction l generalizing a with
  | nil => simpa using ha
  | cons q rest ih =>
    simp only [List.foldl_cons]
    refine ih (max a q.2) (max_le ha (hall q (List.mem_cons_self _ _))) ?_
    exact fun p hp => hall p (List.mem_cons_of_mem _ hp)

/-- When every value equals `c`, the minimum is `c`. -/
theorem minValue_const {α : Type} {m : List (α × ℚ)} {c : ℚ} (hne : m ≠ [])
    (hall : ∀ p ∈ m, p.2 = c) : minValue m = c := by
  cases m with
  | nil => exact absurd rfl hne
  | cons q rest =>
    have hq : q.2 = c := hall q (List.mem_cons_self _ _)
    refine le_antisymm ?_ ?_
    · have := minValue_le (List.mem_cons_self q rest)
      simpa [hq] using this
    · exact le_foldl_min rest q.2 (le_of_eq hq.symm)
        (fun p hp => le_of_eq (hall p (List.mem_cons_of_mem _ hp)).symm)

/-- When every value equals `c`, the maximum is `c`. -/
theorem maxValue_const {α : Type} {m : List (α × ℚ)} {c : ℚ} (hne : m ≠ [])
    (hall : ∀ p ∈ m, p.2 = c) : maxValue m = c := by
  cases m with
  | nil => exact absurd rfl hne
  | cons q rest =>
    have hq : q.2 = c := hall q (List.mem_cons_self _ _)
    refine le_antisymm ?_ ?_
    · exact foldl_max_le rest q.2 (le_of_eq hq)
        (fun p hp => le_of_eq (hall p (List.mem_cons_of_mem _ hp)))
    · have := le_maxValue (List.mem_cons_self q rest)
      simpa [hq] using this

/-- `normalize` faults whenever every value of the dictionary is equal:
`range1 = 0` and the division raises `ZeroDivisionError`. -/
theorem normalize_const_eq_none {α : Type} (m : List (α × ℚ)) (x y c : ℚ)
    (hne : m ≠ []) (hall : ∀ p ∈ m, p.2 = c) :
    normalize m x y = none := by
  cases m with
  | nil => exact absurd rfl hne
  | cons q rest =>
    have hmin : minValue (q :: rest) = c := minValue_const hne hall
    have hmax : maxValue (q :: rest) = c := maxValue_const hne hall
    simp [normalize, hmin, hmax]

/-- The specialization actually called by the pipeline:
`normalize(day_contribution_map, 0, 5)`. -/
theorem normalize05_eq {α : Type} (m : List (α × ℚ))
    (hne : m ≠ []) (hlt : minValue m < maxValue m) :
    normalize m 0 5 =
      some (m.map (fun p =>
        (p.1, ⌈(p.2 - minValue m) / (maxValue m - minValue m) * 5⌉))) := by
  rw [normalize_eq_some m 0 5 hne hlt]
  norm_num

/-- The scaled value lies in `[0, 1]` for every entry of the dictionary. -/
theorem scaled_mem_unit {α : Type} {m : List (α × ℚ)} {p : α × ℚ} (hp : p ∈ m)
    (hlt : minValue m < maxValue m) :
    0 ≤ (p.2 - minValue m) / (maxValue m - minValue m) ∧
      (p.2 - minValue m) / (maxValue m - minValue m) ≤ 1 := by
  have hr : (0:ℚ) < maxValue m - minValue m := sub_pos.mpr hlt
  constructor
  · exact div_nonneg (sub_nonneg.mpr (minValue_le hp)) (le_of_lt hr)
  · rw [div_le_one hr]
    exact sub_le_sub_right (le_maxValue hp) _

/-- C1: on a window where every day has the same raw count (here the
all-zero case), `normalize` does not assign bucket 0 to every day: it
faults with a `ZeroDivisionError`, modelled by `none`.  This contradicts
the specified degenerate-case behavior. -/
theorem claim_C1_degenerate_normalize_faults :
    normalize [((⟨2014, 1, 5⟩ : Date), (0 : ℚ)),
               ((⟨2014, 1, 6⟩ : Date), (0 : ℚ)),
               ((⟨2014, 1, 7⟩ : Date), (0 : ℚ))] 0 5 = none := by
  refine normalize_const_eq_none _ 0 5 0 (by simp) ?_
  intro p hp
  simp only [List.mem_cons, List.not_mem_nil, or_false] at hp
  rcases hp with h | h | h <;> simp [h]

/-- C3: when not all counts are equal, `normalize(m, 0, 5)` succeeds, maps
each day to `ceil((rawCount - minV) / (maxV - minV) * 5)`, and in
particular sends every day of minimum count to bucket 0 and every day of
maximum count to bucket 5. -/
theorem claim_C3_min_max_buckets {α : Type} (m : List (α × ℚ))
    (hne : m ≠ []) (hlt : minValue m < maxValue m) :
    ∃ r, normalize m 0 5 = some r ∧
      r = m.map (fun p =>
        (p.1, ⌈(p.2 - minValue m) / (maxValue m - minValue m) * 5⌉)) ∧
      (∀ p ∈ m, p.2 = minValue m → (p.1, (0 : ℤ)) ∈ r) ∧
      (∀ p ∈ m, p.2 = maxValue m → (p.1, (5 : ℤ)) ∈ r) := by
  refine ⟨_, normalize05_eq m hne hlt, rfl, ?_, ?_⟩
  · intro p hp hmin
    refine List.mem_map.mpr ⟨p, hp, ?_⟩
    simp [hmin]
  · intro p hp hmax
    refine List.mem_map.mpr ⟨p, hp, ?_⟩
    have hr : maxValue m - minValue m ≠ 0 := sub_ne_zero_of_ne (ne_of_gt hlt)
    rw [hmax, div_self hr]
    norm_num

/-- Counterexample to C9 as stated: on a window where every day has raw
count 3, the normalizer faults (`none`), so it is not the case that every
day ends with a bucket in `[0, 5]` after it runs. -/
theorem claim_C9_counterexample :
    normalize [((⟨2015, 6, 1⟩ : Date), (3 : ℚ)),
               ((⟨2015, 6, 2⟩ : Date), (3 : ℚ))] 0 5 = none := by
  refine normalize_const_eq_none _ 0 5 3 (by simp) ?_
  intro p hp
  simp only [List.mem_cons, List.not_mem_nil, or_false] at hp
  rcases hp with h | h <;> simp [h]

/-- C9 (amended): on every window whose counts are not all equal, the
normalizer succeeds and every resulting bucket is an integer in `[0, 5]`. -/
theorem claim_C9_buckets_in_range {α : Type} (m : List (α × ℚ))
    (hne : m ≠ []) (hlt : minValue m < maxValue m) :
    ∃ r, normalize m 0 5 = some r ∧ ∀ q ∈ r, 0 ≤ q.2 ∧ q.2 ≤ 5 := by
  refine ⟨_, normalize05_eq m hne hlt, ?_⟩
  intro q hq
  rcases List.mem_map.mp hq with ⟨p, hp, rfl⟩
  obtain ⟨h0, h1⟩ := scaled_mem_unit hp hlt
  constructor
  · exact Int.ceil_nonneg (by positivity)
  · refine Int.ceil_le.mpr ?_
    push_cast
    nlinarith

/-- C10: normalization is monotone — when not all counts are equal, a day
with a smaller or equal raw count receives a smaller or equal bucket. -/
theorem claim_C10_monotone {α : Type} (m : List (α × ℚ))
    (hne : m ≠ []) (hlt : minValue m < maxValue m) :
    normalize m 0 5 =
      some (m.map (fun p =>
        (p.1, ⌈(p.2 - minValue m) / (maxValue m - minValue m) * 5⌉))) ∧
    ∀ p ∈ m, ∀ q ∈ m, p.2 ≤ q.2 →
      ⌈(p.2 - minValue m) / (maxValue m - minValue m) * 5⌉ ≤
        ⌈(q.2 - minValue m) / (maxValue m - minValue m) * 5⌉ := by
  refine ⟨normalize05_eq m hne hlt, ?_⟩
  intro p _ q _ hpq
  have hr : (0:ℚ) < maxValue m - minValue m := sub_pos.mpr hlt
  refine Int.ceil_le_ceil ?_
  have hdiv : (p.2 - minValue m) / (maxValue m - minValue m) ≤
      (q.2 - minValue m) / (maxValue m - minValue m) :=
    (div_le_div_iff_of_pos_right hr).mpr (sub_le_sub_right hpq _)
  exact mul_le_mul_of_nonneg_right hdiv (by norm_num)

theorem claim_C3_witness :
    ∃ r, normalize [((⟨2016, 1, 3⟩ : Date), (0 : ℚ)),
                    ((⟨2016, 1, 4⟩ : Date), (4 : ℚ))] 0 5 = some r ∧
      r = [((⟨2016, 1, 3⟩ : Date), (0 : ℚ)),
           ((⟨2016, 1, 4⟩ : Date), (4 : ℚ))].map (fun p =>
        (p.1, ⌈(p.2 - minValue [((⟨2016, 1, 3⟩ : Date), (0 : ℚ)),
                                ((⟨2016, 1, 4⟩ : Date), (4 : ℚ))]) /
          (maxValue [((⟨2016, 1, 3⟩ : Date), (0 : ℚ)),
                     ((⟨2016, 1, 4⟩ : Date), (4 : ℚ))] -
           minValue [((⟨2016, 1, 3⟩ : Date), (0 : ℚ)),
                     ((⟨2016, 1, 4⟩ : Date), (4 : ℚ))]) * 5⌉)) ∧
      (∀ p ∈ [((⟨2016, 1, 3⟩ : Date), (0 : ℚ)), ((⟨2016, 1, 4⟩ : Date), (4 : ℚ))],
        p.2 = minValue [((⟨2016, 1, 3⟩ : Date), (0 : ℚ)),
                        ((⟨2016, 1, 4⟩ : Date), (4 : ℚ))] → (p.1, (0 : ℤ)) ∈ r) ∧
      (∀ p ∈ [((⟨2016, 1, 3⟩ : Date), (0 : ℚ)), ((⟨2016, 1, 4⟩ : Date), (4 : ℚ))],
        p.2 = maxValue [((⟨2016, 1, 3⟩ : Date), (0 : ℚ)),
                        ((⟨2016, 1, 4⟩ : Date), (4 : ℚ))] → (p.1, (5 : ℤ)) ∈ r) :=
  claim_C3_min_max_buckets _ (by simp)
    (by norm_num [minValue, maxValue, min_def, max_def])

theorem claim_C9_witness :
    ∃ r, normalize [((⟨2016, 1, 3⟩ : Date), (1 : ℚ)),
                    ((⟨2016, 1, 4⟩ : Date), (3 : ℚ))] 0 5 = some r ∧
      ∀ q ∈ r, 0 ≤ q.2 ∧ q.2 ≤ 5 :=
  claim_C9_buckets_in_range _ (by simp)
    (by norm_num [minValue, maxValue, min_def, max_def])

theorem claim_C10_witness :
    normalize [((⟨2016, 2, 7⟩ : Date), (2 : ℚ)),
               ((⟨2016, 2, 8⟩ : Date), (6 : ℚ))] 0 5 =
      some ([((⟨2016, 2, 7⟩ : Date), (2 : ℚ)),
             ((⟨2016, 2, 8⟩ : Date), (6 : ℚ))].map (fun p =>
        (p.1, ⌈(p.2 - minValue [((⟨2016, 2, 7⟩ : Date), (2 : ℚ)),
                                ((⟨2016, 2, 8⟩ : Date), (6 : ℚ))]) /
          (maxValue [((⟨2016, 2, 7⟩ : Date), (2 : ℚ)),
                     ((⟨2016, 2, 8⟩ : Date), (6 : ℚ))] -
           minValue [((⟨2016, 2, 7⟩ : Date), (2 : ℚ)),
                     ((⟨2016, 2, 8⟩ : Date), (6 : ℚ))]) * 5⌉))) ∧
    ∀ p ∈ [((⟨2016, 2, 7⟩ : Date), (2 : ℚ)), ((⟨2016, 2, 8⟩ : Date), (6 : ℚ))],
      ∀ q ∈ [((⟨2016, 2, 7⟩ : Date), (2 : ℚ)), ((⟨2016, 2, 8⟩ : Date), (6 : ℚ))],
      p.2 ≤ q.2 →
        ⌈(p.2 - minValue [((⟨2016, 2, 7⟩ : Date), (2 : ℚ)),
                          ((⟨2016, 2, 8⟩ : Date), (6 : ℚ))]) /
          (maxValue [((⟨2016, 2, 7⟩ : Date), (2 : ℚ)),
                     ((⟨2016, 2, 8⟩ : Date), (6 : ℚ))] -
           minValue [((⟨2016, 2, 7⟩ : Date), (2 : ℚ)),
                     ((⟨2016, 2, 8⟩ : Date), (6 : ℚ))]) * 5⌉ ≤
        ⌈(q.2 - minValue [((⟨2016, 2, 7⟩ : Date), (2 : ℚ)),
                          ((⟨2016, 2, 8⟩ : Date), (6 : ℚ))]) /
          (maxValue [((⟨2016, 2, 7⟩ : Date), (2 : ℚ)),
                     ((⟨2016, 2, 8⟩ : Date), (6 : ℚ))] -
           minValue [((⟨2016, 2, 7⟩ : Date), (2 : ℚ)),
                     ((⟨2016, 2, 8⟩ : Date), (6 : ℚ))]) * 5⌉ :=
  claim_C10_monotone _ (by simp)
    (by norm_num [minValue, maxValue, min_def, max_def])

/-! ## The grid builder (`graph_block` in the source)

A slot of a week column is `some d` for the cell
`[current_day, colorize(BLOCK_WIDTH, ...)]` holding a real day, and `none`
for the blank cell `[None, BLOCK_WIDTH]`; the color payload plays no role
in the layout.  The matrix is accumulated with the most recent column at
the head (Python appends at the end) and reversed when the builder
finishes, so the returned grid is in chronological column order. -/

/-- One grid cell: a real day or a blank. -/
abbrev Slot := Option Date

/-- One week column (`Column.col` in the source). -/
abbrev Col := List Slot

/-- `Column.fill`: append blank slots until the column holds 7. -/
def fillCol (c : Col) : Col :=
  c ++ List.replicate (7 - c.length) (none : Slot)

/-- `Column.fill_by(first_x)`: append `first_x` blank slots. -/
def fillBy (c : Col) (k : Nat) : Col :=
  c ++ List.replicate k (none : Slot)

/-- `Column(full_empty_col=True)`: a fully blank separator column. -/
def emptyCol : Col :=
  List.replicate 7 (none : Slot)

/-- The leading-blank loop of `graph_block`: starting from
`d = first_day - 1 day`, step back one day and append one blank until the
day reached is a Saturday; the loop runs at most 6 times, so fuel 7 is
exact. -/
def initBlanks : Nat → Date → Nat
  | 0, _ => 0
  | fuel + 1, d =>
    if weekdayName d = "Saturday" then 0 else initBlanks fuel (prevDay d) + 1

/-- The initial matrix of `graph_block`: when the first day is not a
Sunday, one column pre-padded with the blanks produced by the backwards
loop; otherwise one empty column. -/
def initMatrix (first : Date) : List Col :=
  if weekdayName first ≠ "Sunday" then
    [List.replicate (initBlanks 7 (prevDay first)) (none : Slot)]
  else [([] : Col)]

/-- First half of the day-loop body of `graph_block`: append `current_day`
to the last column; when the append raises `ValueError` (the column
already holds 7 slots), open a fresh column and put the day there. -/
def appendDay (mat : List Col) (d : Date) : List Col :=
  match mat with
  | [] => []
  | cur :: rest =>
    if 7 ≤ cur.length then [some d] :: cur :: rest
    else (cur ++ [some d]) :: rest

/-- Second half of the day-loop body of `graph_block`: when
`next_day = current_day + 1 day` falls in a different month, fill the
current column to 7 slots, append the fully blank separator column, and
open a new column pre-padded with `days.index(next_day.strftime("%A"))`
blanks. -/
def monthBreak (mat : List Col) (d : Date) : List Col :=
  match mat with
  | [] => []
  | cur1 :: rest1 =>
    if (nextDay d).month ≠ d.month then
      fillBy [] (dayNames.indexOf (weekdayName (nextDay d)))
        :: emptyCol :: fillCol cur1 :: rest1
    else cur1 :: rest1

/-- The body of the day loop of `graph_block` for one `current_day`. -/
def placeDay (mat : List Col) (d : Date) : List Col :=
  monthBreak (appendDay mat d) d

/-- `graph_block` on the sorted day list: `none` models the `IndexError`
raised on an empty input (`sorted_nomr_daily_contribution[0]`).  After the
day loop the last column is filled to 7 slots. -/
def graphBlock (l : List Date) : Option (List Col) :=
  match l with
  | [] => none
  | first :: _ =>
    match l.foldl placeDay (initMatrix first) with
    | [] => none
    | cur :: rest => some ((fillCol cur :: rest).reverse)

/-- The dates of the non-blank slots of a grid, read column by column. -/
def gridDates (g : List Col) : List Date :=
  g.flatten.filterMap id

/-! Invariants of the builder loop. -/

/-- Loop invariant: the matrix is non-empty, the current (head) column
holds at most 7 slots, and every closed column holds exactly 7. -/
def MatInv (mat : List Col) : Prop :=
  ∃ cur rest, mat = cur :: rest ∧ cur.length ≤ 7 ∧ ∀ c ∈ rest, c.length = 7

theorem initBlanks_le (fuel : Nat) (d : Date) : initBlanks fuel d ≤ fuel := by
  induction fuel generalizing d with
  | zero => simp [initBlanks]
  | succ n ih =>
    simp only [initBlanks]
    split
    · omega
    · have := ih (prevDay d)
      omega

theorem fillCol_length {c : Col} (h : c.length ≤ 7) : (fillCol c).length = 7 := by
  simp [fillCol]
  omega

theorem indexOf_le_seven (s : String) : dayNames.indexOf s ≤ 7 := by
  have h := List.indexOf_le_length (a := s) (l := dayNames)
  simpa [dayNames] using h

theorem initMatrix_inv (first : Date) : MatInv (initMatrix first) := by
  unfold initMatrix MatInv
  split
  · refine ⟨_, [], rfl, ?_, by simp⟩
    simpa using initBlanks_le 7 (prevDay first)
  · exact ⟨[], [], rfl, by simp, by simp⟩

theorem appendDay_inv {mat : List Col} (d : Date) (h : MatInv mat) :
    MatInv (appendDay mat d) := by
  obtain ⟨cur, rest, rfl, hcur, hrest⟩ := h
  simp only [appendDay]
  by_cases hfull : 7 ≤ cur.length
  · have hcur7 : cur.length = 7 := le_antisymm hcur hfull
    rw [if_pos hfull]
    refine ⟨_, _, rfl, by simp, ?_⟩
    intro c hc
    rcases List.mem_cons.mp hc with rfl | hc
    · exact hcur7
    · exact hrest c hc
  · rw [if_neg hfull]
    exact ⟨_, _, rfl, by simp; omega, hrest⟩

theorem monthBreak_inv {mat : List Col} (d : Date) (h : MatInv mat) :
    MatInv (monthBreak mat d) := by
  obtain ⟨cur, rest, rfl, hcur, hrest⟩ := h
  simp only [monthBreak]
  by_cases hm : (nextDay d).month ≠ d.month
  · rw [if_pos hm]
    refine ⟨_, _, rfl, by simpa [fillBy] using indexOf_le_seven _, ?_⟩
    intro c hc
    rcases List.mem_cons.mp hc with rfl | hc
    · simp [emptyCol]
    rcases List.mem_cons.mp hc with rfl | hc
    · exact fillCol_length hcur
    · exact hrest c hc
  · rw [if_neg hm]
    exact ⟨_, _, rfl, hcur, hrest⟩

theorem placeDay_inv {mat : List Col} (d : Date) (h : MatInv mat) :
    MatInv (placeDay mat d) :=
  monthBreak_inv d (appendDay_inv d h)

theorem foldl_placeDay_inv (l : List Date) {mat : List Col} (h : MatInv mat) :
    MatInv (l.foldl placeDay mat) := by
  induction l generalizing mat with
  | nil => simpa
  | cons d rest ih => exact ih (placeDay_inv d h)

/-- C2: for every non-empty day list, the builder produces a grid, and
every week column of that grid — first, last and separator columns
included — has length exactly 7. -/
theorem claim_C2_columns_length_seven (l : List Date) (hl : l ≠ []) :
    (graphBlock l).isSome ∧ ∀ c ∈ (graphBlock l).getD [], c.length = 7 := by
  cases l with
  | nil => exact absurd rfl hl
  | cons first rest =>
    obtain ⟨cur, rest2, heq, hcur, hall⟩ :=
      foldl_placeDay_inv (first :: rest) (initMatrix_inv first)
    simp only [graphBlock, heq]
    refine ⟨rfl, ?_⟩
    intro c hc
    simp only [Option.getD_some, List.mem_reverse] at hc
    rcases List.mem_cons.mp hc with rfl | hc
    · exact fillCol_length hcur
    · exact hall c hc

/-! Reading the non-blank slots back out of the accumulated matrix. -/

/-- The dates placed so far, oldest first (the matrix accumulator holds
its most recent column at the head). -/
def matDates (mat : List Col) : List Date :=
  gridDates mat.reverse

theorem filterMap_id_replicate_none (n : Nat) :
    (List.replicate n (none : Slot)).filterMap id = [] := by
  induction n with
  | zero => rfl
  | succ k ih => simp [List.replicate_succ, ih]

theorem matDates_cons (cur : Col) (rest : List Col) :
    matDates (cur :: rest) = matDates rest ++ cur.filterMap id := by
  simp [matDates, gridDates]

theorem appendDay_ne_nil {mat : List Col} (d : Date) (h : mat ≠ []) :
    appendDay mat d ≠ [] := by
  cases mat with
  | nil => exact absurd rfl h
  | cons cur rest =>
    simp only [appendDay]
    split <;> simp

theorem monthBreak_ne_nil {mat : List Col} (d : Date) (h : mat ≠ []) :
    monthBreak mat d ≠ [] := by
  cases mat with
  | nil => exact absurd rfl h
  | cons cur rest =>
    simp only [monthBreak]
    split <;> simp

theorem placeDay_ne_nil {mat : List Col} (d : Date) (h : mat ≠ []) :
    placeDay mat d ≠ [] :=
  monthBreak_ne_nil d (appendDay_ne_nil d h)

theorem appendDay_dates {mat : List Col} (d : Date) (h : mat ≠ []) :
    matDates (appendDay mat d) = matDates mat ++ [d] := by
  cases mat with
  | nil => exact absurd rfl h
  | cons cur rest =>
    simp only [appendDay]
    split
    · simp [matDates_cons]
    · simp [matDates_cons]

theorem monthBreak_dates {mat : List Col} (d : Date) (h : mat ≠ []) :
    matDates (monthBreak mat d) = matDates mat := by
  cases mat with
  | nil => exact absurd rfl h
  | cons cur rest =>
    simp only [monthBreak]
    split
    · simp [matDates_cons, fillCol, fillBy, emptyCol, filterMap_id_replicate_none]
    · rfl

theorem placeDay_dates {mat : List Col} (d : Date) (h : mat ≠ []) :
    matDates (placeDay mat d) = matDates mat ++ [d] := by
  unfold placeDay
  rw [monthBreak_dates d (appendDay_ne_nil d h), appendDay_dates d h]

theorem foldl_placeDay_dates (l : List Date) {mat : List Col} (h : mat ≠ []) :
    matDates (l.foldl placeDay mat) = matDates mat ++ l := by
  induction l generalizing mat with
  | nil => simp
  | cons d rest ih =>
    simp only [List.foldl_cons]
    rw [ih (placeDay_ne_nil d h), placeDay_dates d h, List.append_assoc]
    rfl

theorem initMatrix_ne_nil (first : Date) : initMatrix first ≠ [] := by
  unfold initMatrix
  split <;> simp

theorem initMatrix_dates (first : Date) : matDates (initMatrix first) = [] := by
  unfold initMatrix
  split <;> simp [matDates_cons, filterMap_id_replicate_none, matDates, gridDates]

/-- C7: for every non-empty strictly chronological day list, the builder
produces a grid whose non-blank slots, read in column order, are exactly
the input days: their number equals the number of days, and they appear
in strictly chronological order. -/
theorem claim_C7_nonblank_slots (l : List Date) (hl : l ≠ [])
    (hs : List.Chain' dateLT l) :
    ∃ g, graphBlock l = some g ∧ gridDates g = l ∧
      (gridDates g).length = l.length ∧ List.Chain' dateLT (gridDates g) := by
  cases l with
  | nil => exact absurd rfl hl
  | cons first rest =>
    obtain ⟨cur, rest2, heq, hcur, hall⟩ :=
      foldl_placeDay_inv (first :: rest) (initMatrix_inv first)
    refine ⟨(fillCol cur :: rest2).reverse, by simp only [graphBlock, heq], ?_⟩
    have hdates : gridDates ((fillCol cur :: rest2).reverse) = first :: rest := by
      have h1 : matDates (fillCol cur :: rest2) = matDates (cur :: rest2) := by
        simp [matDates_cons, fillCol, filterMap_id_replicate_none]
      have h2 : matDates (cur :: rest2) = first :: rest := by
        rw [← heq, foldl_placeDay_dates _ (initMatrix_ne_nil first),
          initMatrix_dates]
        rfl
      calc gridDates ((fillCol cur :: rest2).reverse)
          = matDates (fillCol cur :: rest2) := rfl
        _ = first :: rest := h1.trans h2
    exact ⟨hdates, by rw [hdates], by rw [hdates]; exact hs⟩

/-- The `days.index(...)` computation of `graph_block` is the weekday
index with Sunday at 0. -/
theorem indexOf_weekdayName (t : Date) :
    dayNames.indexOf (weekdayName t) = ord t % 7 := by
  have h : ord t % 7 < 7 := Nat.mod_lt _ (by norm_num)
  unfold weekdayName
  generalize hk : ord t % 7 = k at h ⊢
  interval_cases k <;> decide

/-- C6: when `current_day` is the last day of its month, the day-loop body
pads the column that received the day with blanks to exactly 7 slots,
appends one fully blank separator column, and opens a new column
pre-padded with one blank slot per weekday index (Sunday = 0) of the first
day of the next month. -/
theorem claim_C6_month_boundary (mat : List Col) (d : Date) (hmat : mat ≠ [])
    (hb : (nextDay d).month ≠ d.month) :
    ∃ cur rest,
      placeDay mat d =
        List.replicate (dayNames.indexOf (weekdayName (nextDay d))) (none : Slot)
          :: List.replicate 7 (none : Slot)
          :: (cur ++ List.replicate (7 - cur.length) (none : Slot)) :: rest ∧
      (cur ++ List.replicate (7 - cur.length) (none : Slot)).length = 7 ∧
      dayNames.indexOf (weekdayName (nextDay d)) = ord (nextDay d) % 7 := by
  cases mat with
  | nil => exact absurd rfl hmat
  | cons cur0 rest0 =>
    unfold placeDay
    simp only [appendDay]
    by_cases hfull : 7 ≤ cur0.length
    · rw [if_pos hfull]
      refine ⟨[some d], cur0 :: rest0, ?_, by simp, indexOf_weekdayName _⟩
      simp only [monthBreak, if_pos hb]
      simp [fillBy, fillCol, emptyCol]
    · rw [if_neg hfull]
      refine ⟨cur0 ++ [some d], rest0, ?_, ?_, indexOf_weekdayName _⟩
      · simp only [monthBreak, if_pos hb]
        simp [fillBy, fillCol, emptyCol]
      · have : (cur0 ++ [some d]).length ≤ 7 := by simp; omega
        simpa [fillCol] using fillCol_length this

theorem claim_C2_witness :
    (graphBlock [(⟨2016, 3, 9⟩ : Date)]).isSome ∧
      ∀ c ∈ (graphBlock [(⟨2016, 3, 9⟩ : Date)]).getD [], c.length = 7 :=
  claim_C2_columns_length_seven _ (by simp)

theorem claim_C7_witness :
    ∃ g, graphBlock [(⟨2016, 3, 9⟩ : Date), (⟨2016, 3, 10⟩ : Date)] = some g ∧
      gridDates g = [(⟨2016, 3, 9⟩ : Date), (⟨2016, 3, 10⟩ : Date)] ∧
      (gridDates g).length =
        [(⟨2016, 3, 9⟩ : Date), (⟨2016, 3, 10⟩ : Date)].length ∧
      List.Chain' dateLT (gridDates g) :=
  claim_C7_nonblank_slots _ (by simp) (List.chain'_pair.mpr (by decide))

theorem claim_C6_witness :
    ∃ cur rest,
      placeDay [([] : Col)] (⟨2016, 4, 30⟩ : Date) =
        List.replicate
            (dayNames.indexOf (weekdayName (nextDay (⟨2016, 4, 30⟩ : Date))))
            (none : Slot)
          :: List.replicate 7 (none : Slot)
          :: (cur ++ List.replicate (7 - cur.length) (none : Slot)) :: rest ∧
      (cur ++ List.replicate (7 - cur.length) (none : Slot)).length = 7 ∧
      dayNames.indexOf (weekdayName (nextDay (⟨2016, 4, 30⟩ : Date))) =
        ord (nextDay (⟨2016, 4, 30⟩ : Date)) % 7 :=
  claim_C6_month_boundary _ _ (by simp) (by decide)

/-! ## The contribution aggregator and commit database of `main`

`commits_db` is a dictionary keyed by the full parsed timestamp (a
datetime, not a calendar date), and the aggregation loop runs over
`commits_db.keys()` — one iteration per distinct timestamp. -/

/-- A parsed commit timestamp (`parse_date` result): a calendar date plus
a time-of-day discriminant.  Two timestamps with the same date but
different times are distinct dictionary keys. -/
structure Timestamp where
  date : Date
  tod : Nat
  deriving DecidableEq, Repr

/-- One parsed log line `'<timestamp> ~ <author>'`. -/
structure Event where
  ts : Timestamp
  author : String
  deriving DecidableEq, Repr

/-- The weekday filter of the parse loop:
`if SHOW_BY_DAY and SHOW_BY_DAY != date.strftime("%A"): continue`. -/
def keepEvent (showByDay : Option String) (e : Event) : Bool :=
  match showByDay with
  | none => true
  | some w => w == weekdayName e.ts.date

/-- The keys of `commits_db` after the parse loop: the distinct
timestamps of the events that pass the weekday filter, in insertion
order. -/
def dbKeys (events : List Event) (showByDay : Option String) : List Timestamp :=
  events.foldl (fun ks e =>
    if keepEvent showByDay e then
      (if e.ts ∈ ks then ks else ks ++ [e.ts])
    else ks) []

/-- The zero-filled `day_contribution_map` over the window days. -/
def initMap (window : List Date) : List (Date × ℚ) :=
  window.map (fun d => (d, (0 : ℚ)))

/-- One step of the aggregation loop:
`contribution_day = datetime.date(dt.year, dt.month, dt.day)` followed by
`if contribution_day in day_contribution_map: ... += 1.0`. -/
def bumpDay (m : List (Date × ℚ)) (cd : Date) : List (Date × ℚ) :=
  if (m.lookup cd).isSome then
    m.map (fun p => if p.1 = cd then (p.1, p.2 + 1) else p)
  else m

/-- The aggregation loop of `main`: `for dt in dates: ...` over the keys
of `commits_db`. -/
def aggregate (m : List (Date × ℚ)) (keys : List Timestamp) : List (Date × ℚ) :=
  keys.foldl (fun m dt => bumpDay m dt.date) m

theorem lookup_isSome_iff (m : List (Date × ℚ)) (a : Date) :
    (m.lookup a).isSome ↔ a ∈ m.map Prod.fst := by
  induction m with
  | nil => simp
  | cons p rest ih =>
    by_cases h : a = p.1
    · subst h
      simp [List.lookup]
    · have hb : (a == p.1) = false := beq_false_of_ne h
      simp [List.lookup, hb, ih, h]

theorem bumpDay_keys (m : List (Date × ℚ)) (cd : Date) :
    (bumpDay m cd).map Prod.fst = m.map Prod.fst := by
  unfold bumpDay
  split
  · rw [List.map_map]
    refine List.map_congr_left ?_
    intro p _
    by_cases h : p.1 = cd <;> simp [h]
  · rfl

theorem aggregate_keys (ks : List Timestamp) (m : List (Date × ℚ)) :
    (aggregate m ks).map Prod.fst = m.map Prod.fst := by
  induction ks generalizing m with
  | nil => rfl
  | cons t ks ih =>
    show (aggregate (bumpDay m t.date) ks).map Prod.fst = _
    rw [ih, bumpDay_keys]

/-- Closed form of the aggregation loop: each window day receives one
increment per distinct timestamp key falling on it. -/
theorem aggregate_eq (ks : List Timestamp) (m : List (Date × ℚ)) :
    aggregate m ks = m.map (fun p =>
      (p.1, p.2 + ((ks.filter (fun t => t.date == p.1)).length : ℚ))) := by
  induction ks generalizing m with
  | nil =>
    simp [aggregate]
  | cons t ks ih =>
    show aggregate (bumpDay m t.date) ks = _
    rw [ih]
    unfold bumpDay
    split
    · rw [List.map_map]
      refine List.map_congr_left ?_
      intro p _
      by_cases h : p.1 = t.date
      · simp only [Function.comp, h, eq_self_iff_true, if_true,
          List.filter_cons, beq_self_eq_true, List.length_cons,
          Prod.mk.injEq, true_and]
        push_cast
        ring
      · have hb : (t.date == p.1) = false := beq_false_of_ne (Ne.symm h)
        simp [Function.comp, h, List.filter_cons, hb]
    · rename_i hns
      refine List.map_congr_left ?_
      intro p hp
      have hkey : p.1 ∈ m.map Prod.fst := List.mem_map_of_mem _ hp
      have hne : p.1 ≠ t.date := by
        intro hEq
        exact hns ((lookup_isSome_iff m t.date).mpr (hEq ▸ hkey))
      have hb : (t.date == p.1) = false := beq_false_of_ne (Ne.symm hne)
      simp [List.filter_cons, hb]

theorem dbKeys_go_nodup (events : List Event) (sbd : Option String)
    (acc : List Timestamp) (hacc : acc.Nodup) :
    (events.foldl (fun ks e =>
      if keepEvent sbd e then
        (if e.ts ∈ ks then ks else ks ++ [e.ts])
      else ks) acc).Nodup := by
  induction events generalizing acc with
  | nil => simpa
  | cons e rest ih =>
    simp only [List.foldl_cons]
    refine ih _ ?_
    by_cases hk : keepEvent sbd e
    · rw [if_pos hk]
      by_cases hm : e.ts ∈ acc
      · rwa [if_pos hm]
      · rw [if_neg hm]
        simpa [List.nodup_append] using ⟨hacc, hm⟩
    · rwa [if_neg hk]

theorem dbKeys_nodup (events : List Event) (sbd : Option String) :
    (dbKeys events sbd).Nodup :=
  dbKeys_go_nodup events sbd [] List.nodup_nil

/-- Counterexample to C4 as stated: two identical events (same timestamp,
same author) on a window day produce a raw count of 1, not 2 — the
commits database is keyed by timestamp, so the second event collapses
into the first key and the aggregation loop counts it once. -/
theorem claim_C4_counterexample :
    (aggregate
        (initMap [(⟨2014, 5, 1⟩ : Date)])
        (dbKeys [(⟨⟨⟨2014, 5, 1⟩, 100⟩, "alice"⟩ : Event),
                 (⟨⟨⟨2014, 5, 1⟩, 100⟩, "alice"⟩ : Event)] none)).lookup
      (⟨2014, 5, 1⟩ : Date) = some 1 ∧
    (([(⟨⟨⟨2014, 5, 1⟩, 100⟩, "alice"⟩ : Event),
       (⟨⟨⟨2014, 5, 1⟩, 100⟩, "alice"⟩ : Event)].filter
        (fun ev => ev.ts.date == (⟨2014, 5, 1⟩ : Date))).length : ℚ) = 2 := by
  constructor
  · norm_num [aggregate, initMap, dbKeys, keepEvent, bumpDay, List.lookup]
  · norm_num

/-- C4 (amended): aggregation leaves the window's key set unchanged; the
timestamp keys are distinct; each window day's final raw count equals the
number of distinct timestamps (among events passing the weekday filter)
whose calendar date is that day; days keep count 0 when no key falls on
them, and keys outside the window change nothing. -/
theorem lookup_map_initMap (window : List Date) (d : Date) (c : Date → ℚ)
    (hd : d ∈ window) (hnd : window.Nodup) :
    ((initMap window).map (fun p => (p.1, p.2 + c p.1))).lookup d =
      some (c d) := by
  induction window with
  | nil => cases hd
  | cons w rest ih =>
    rcases List.mem_cons.mp hd with rfl | hd'
    · simp [initMap, List.lookup]
    · have hw : d ≠ w := by
        rintro rfl
        exact (List.nodup_cons.mp hnd).1 hd'
      have hb : (d == w) = false := beq_false_of_ne hw
      simpa [initMap, List.lookup, hb] using
        ih hd' (List.nodup_cons.mp hnd).2

theorem claim_C4_distinct_timestamp_counts (window : List Date)
    (events : List Event) (sbd : Option String) (d : Date) (hd : d ∈ window)
    (hnd : window.Nodup) :
    (aggregate (initMap window) (dbKeys events sbd)).map Prod.fst = window ∧
    (dbKeys events sbd).Nodup ∧
    (aggregate (initMap window) (dbKeys events sbd)).lookup d =
      some (((dbKeys events sbd).filter
        (fun t => t.date == d)).length : ℚ) := by
  have hkeys : (initMap window).map Prod.fst = window := by
    simp [initMap, List.map_map, Function.comp_def]
  refine ⟨by rw [aggregate_keys, hkeys], dbKeys_nodup events sbd, ?_⟩
  rw [aggregate_eq]
  exact lookup_map_initMap window d
    (fun a => (((dbKeys events sbd).filter (fun t => t.date == a)).length : ℚ))
    hd hnd

theorem claim_C4_witness :
    (aggregate (initMap [(⟨2014, 5, 1⟩ : Date), (⟨2014, 5, 2⟩ : Date)])
        (dbKeys [(⟨⟨⟨2014, 5, 1⟩, 10⟩, "alice"⟩ : Event),
                 (⟨⟨⟨2014, 5, 1⟩, 20⟩, "bob"⟩ : Event)] none)).map Prod.fst =
      [(⟨2014, 5, 1⟩ : Date), (⟨2014, 5, 2⟩ : Date)] ∧
    (dbKeys [(⟨⟨⟨2014, 5, 1⟩, 10⟩, "alice"⟩ : Event),
             (⟨⟨⟨2014, 5, 1⟩, 20⟩, "bob"⟩ : Event)] none).Nodup ∧
    (aggregate (initMap [(⟨2014, 5, 1⟩ : Date), (⟨2014, 5, 2⟩ : Date)])
        (dbKeys [(⟨⟨⟨2014, 5, 1⟩, 10⟩, "alice"⟩ : Event),
                 (⟨⟨⟨2014, 5, 1⟩, 20⟩, "bob"⟩ : Event)] none)).lookup
      (⟨2014, 5, 1⟩ : Date) =
      some (((dbKeys [(⟨⟨⟨2014, 5, 1⟩, 10⟩, "alice"⟩ : Event),
                      (⟨⟨⟨2014, 5, 1⟩, 20⟩, "bob"⟩ : Event)] none).filter
        (fun t => t.date == (⟨2014, 5, 1⟩ : Date))).length : ℚ) :=
  claim_C4_distinct_timestamp_counts _ _ none _ (by simp) (by simp)

/-! ## The window calculator and the pipeline skeleton of `main` -/

/-- `today - relativedelta(years=1, days=7)`: `relativedelta` first moves
the year back by one (clamping the day to the shorter February when
needed), then subtracts 7 days. -/
def lastYear (today : Date) : Date :=
  prevDay^[7] ⟨today.year - 1, today.month,
    min today.day (daysInMonth (today.year - 1) today.month)⟩

/-- The zero-initialization loop of `main`: each `i` in
`range(delta.days + 1)` visits `last_year + timedelta(days=i)`; days are
skipped until the first Sunday, and every visited day from then on is
entered into the map with count `0.0`. -/
def windowGo (ly : Date) (flag : Bool) : List Nat → List Date
  | [] => []
  | i :: is =>
    if flag = true ∧ weekdayName (addDays ly i) ≠ "Sunday" then
      windowGo ly flag is
    else addDays ly i :: windowGo ly false is

/-- The window days of `main`, in insertion (chronological) order:
`delta = today - last_year`, loop over `range(delta.days + 1)`. -/
def windowDays (today : Date) : List Date :=
  let ly := lastYear today
  let delta : ℤ := (ord today : ℤ) - (ord ly : ℤ)
  windowGo ly true (List.range (delta + 1).toNat)

/-- The observable outcome of one run of `main`'s pipeline. -/
inductive RunResult where
  /-- `print('No contribution found')` followed by `sys.exit(0)`:
  a user-facing message and a clean exit, no grid. -/
  | emptyResult : RunResult
  /-- The grid printed by `graph_block`. -/
  | output : List Col → RunResult
  /-- An uncaught exception (non-zero process exit, no grid). -/
  | fault : RunResult
  deriving DecidableEq

/-- Process exit code of an outcome (`sys.exit(0)` on the empty path,
interpreter failure on an uncaught exception). -/
def exitCode : RunResult → Nat
  | RunResult.emptyResult => 0
  | RunResult.output _ => 0
  | RunResult.fault => 1

/-- The grid an outcome prints, if any. -/
def gridOf : RunResult → Option (List Col)
  | RunResult.output g => some g
  | _ => none

/-- The pipeline of `main` after the git call: the emptiness check on the
raw commits, the commit database, the window initialization, the
aggregation, the normalization and the grid construction.  The author
filter is applied by git itself (`--author`), so an author filtering to
zero events yields an empty `events` list here. -/
def runPipeline (today : Date) (sbd : Option String)
    (events : List Event) : RunResult :=
  if events = [] then RunResult.emptyResult
  else
    let window := windowDays today
    let m := aggregate (initMap window) (dbKeys events sbd)
    match normalize m 0 5 with
    | none => RunResult.fault
    | some r =>
      match graphBlock (r.map Prod.fst) with
      | none => RunResult.fault
      | some g => RunResult.output g

/-! ## Calendar arithmetic for the window calculator

`ord` is `datetime.date.toordinal`; the lemmas below establish that
`nextDay`/`prevDay` shift it by one on valid dates, that it is strictly
monotone for the chronological order, and how far `lastYear` reaches
back.  They drive the proof of the window-shape claim. -/

theorem isLeap_iff (y : Nat) :
    isLeap y = true ↔ ((y % 4 = 0 ∧ y % 100 ≠ 0) ∨ y % 400 = 0) := by
  simp [isLeap, Bool.or_eq_true, Bool.and_eq_true, beq_iff_eq, bne_iff_ne]

theorem leapCount_succ (k : Nat) :
    leapCount (k + 1) = leapCount k + (if isLeap (k + 1) then 1 else 0) := by
  have h4 := Nat.succ_div k 4
  have h100 := Nat.succ_div k 100
  have h400 := Nat.succ_div k 400
  have l1 : k / 100 ≤ k / 4 := Nat.div_le_div_left (by norm_num) (by norm_num)
  have l2 : k / 400 ≤ k / 100 := Nat.div_le_div_left (by norm_num) (by norm_num)
  by_cases hL : isLeap (k + 1) = true
  · rw [if_pos hL]
    rcases (isLeap_iff (k + 1)).mp hL with ⟨hm4, hm100⟩ | hm400
    · have d4 : 4 ∣ k + 1 := by omega
      have d100 : ¬ 100 ∣ k + 1 := by omega
      have d400 : ¬ 400 ∣ k + 1 := by omega
      rw [if_pos d4] at h4
      rw [if_neg d100] at h100
      rw [if_neg d400] at h400
      unfold leapCount
      omega
    · have d400 : 400 ∣ k + 1 := by omega
      have d100 : 100 ∣ k + 1 := dvd_trans (by norm_num) d400
      have d4 : 4 ∣ k + 1 := dvd_trans (by norm_num) d400
      rw [if_pos d4] at h4
      rw [if_pos d100] at h100
      rw [if_pos d400] at h400
      unfold leapCount
      omega
  · rw [if_neg hL]
    have hnot := (isLeap_iff (k + 1)).not.mp hL
    push_neg at hnot
    obtain ⟨h1, hm400⟩ := hnot
    have d400 : ¬ 400 ∣ k + 1 := by omega
    rw [if_neg d400] at h400
    by_cases hm4 : (k + 1) % 4 = 0
    · have hm100 : (k + 1) % 100 = 0 := h1 hm4
      have d4 : 4 ∣ k + 1 := by omega
      have d100 : 100 ∣ k + 1 := by omega
      rw [if_pos d4] at h4
      rw [if_pos d100] at h100
      unfold leapCount
      omega
    · have d4 : ¬ 4 ∣ k + 1 := by omega
      have d100 : ¬ 100 ∣ k + 1 := by omega
      rw [if_neg d4] at h4
      rw [if_neg d100] at h100
      unfold leapCount
      omega

theorem leapCount_mono {a b : Nat} (h : a ≤ b) : leapCount a ≤ leapCount b := by
  induction b with
  | zero => simp [Nat.le_zero.mp h]
  | succ n ih =>
    rcases Nat.le_succ_iff.mp h with h' | h'
    · calc leapCount a ≤ leapCount n := ih h'
        _ ≤ _ := by rw [leapCount_succ]; omega
    · simp [h']

theorem one_le_daysInMonth {y m : Nat} (h1 : 1 ≤ m) (h2 : m ≤ 12) :
    1 ≤ daysInMonth y m := by
  interval_cases m <;> first
    | (simp [daysInMonth]; split <;> norm_num)
    | simp [daysInMonth]

theorem daysInMonth_le_31 {y m : Nat} (h1 : 1 ≤ m) (h2 : m ≤ 12) :
    daysInMonth y m ≤ 31 := by
  interval_cases m <;> first
    | (simp [daysInMonth]; split <;> norm_num)
    | simp [daysInMonth]

theorem daysBeforeMonth_succ (y : Nat) {m : Nat} (h1 : 1 ≤ m) (h2 : m ≤ 11) :
    daysBeforeMonth y (m + 1) = daysBeforeMonth y m + daysInMonth y m := by
  interval_cases m <;>
    cases hL : isLeap y <;>
      simp [daysBeforeMonth, daysInMonth, hL]

theorem daysBeforeMonth_12_add (y : Nat) :
    daysBeforeMonth y 12 + daysInMonth y 12 =
      365 + (if isLeap y then 1 else 0) := by
  cases hL : isLeap y <;> simp [daysBeforeMonth, daysInMonth, hL]

theorem daysBeforeMonth_one (y : Nat) : daysBeforeMonth y 1 = 0 := by
  simp [daysBeforeMonth]

/-- `nextDay` advances the ordinal by exactly one on valid dates. -/
theorem ord_nextDay {t : Date} (hv : Valid t) : ord (nextDay t) = ord t + 1 := by
  obtain ⟨hy, hm1, hm2, hd1, hd2⟩ := hv
  unfold nextDay
  by_cases hcase : t.day < daysInMonth t.year t.month
  · rw [if_pos hcase]
    unfold ord
    dsimp only
    omega
  · rw [if_neg hcase]
    have hdEq : t.day = daysInMonth t.year t.month := le_antisymm hd2 (by omega)
    by_cases hm : t.month < 12
    · rw [if_pos hm]
      unfold ord
      dsimp only
      rw [daysBeforeMonth_succ t.year hm1 (by omega)]
      omega
    · rw [if_neg hm]
      have hm12 : t.month = 12 := by omega
      obtain ⟨z, hz⟩ : ∃ z, t.year = z + 1 := ⟨t.year - 1, by omega⟩
      unfold ord
      dsimp only
      rw [hz, hm12, daysBeforeMonth_one, Nat.add_sub_cancel, Nat.add_sub_cancel]
      have hsucc := leapCount_succ z
      have h12 := daysBeforeMonth_12_add (z + 1)
      have hdim : daysInMonth (z + 1) 12 = 31 := by simp [daysInMonth]
      have hd31 : t.day = 31 := by rw [hdEq, hm12, hz, hdim]
      cases hL : isLeap (z + 1) <;> simp only [hL, if_true, if_false] at hsucc h12 <;> omega

/-- `nextDay` preserves validity. -/
theorem valid_nextDay {t : Date} (hv : Valid t) : Valid (nextDay t) := by
  obtain ⟨hy, hm1, hm2, hd1, hd2⟩ := hv
  unfold nextDay
  by_cases hcase : t.day < daysInMonth t.year t.month
  · rw [if_pos hcase]
    unfold Valid
    dsimp only
    exact ⟨hy, hm1, hm2, by omega, by omega⟩
  · rw [if_neg hcase]
    by_cases hm : t.month < 12
    · rw [if_pos hm]
      unfold Valid
      dsimp only
      exact ⟨hy, by omega, by omega, le_refl 1,
        one_le_daysInMonth (by omega) (by omega)⟩
    · rw [if_neg hm]
      unfold Valid
      dsimp only
      exact ⟨by omega, le_refl 1, by norm_num, le_refl 1, by simp [daysInMonth]⟩

/-- `prevDay` inverts `nextDay` on valid dates other than the epoch. -/
theorem nextDay_prevDay {t : Date} (hv : Valid t) (hne : t ≠ ⟨1, 1, 1⟩) :
    nextDay (prevDay t) = t := by
  obtain ⟨hy, hm1, hm2, hd1, hd2⟩ := hv
  unfold prevDay
  by_cases hd : 1 < t.day
  · rw [if_pos hd]
    unfold nextDay
    dsimp only
    rw [if_pos (by omega)]
    exact congrArg (Date.mk t.year t.month) (by omega)
  · rw [if_neg hd]
    have hd1' : t.day = 1 := by omega
    by_cases hm : 1 < t.month
    · rw [if_pos hm]
      unfold nextDay
      dsimp only
      rw [if_neg (by omega), if_pos (by omega)]
      have hmm : t.month - 1 + 1 = t.month := by omega
      rw [hmm]
      cases t
      simp_all
    · rw [if_neg hm]
      have hm1' : t.month = 1 := by omega
      have hy2 : 2 ≤ t.year := by
        rcases Nat.lt_or_ge t.year 2 with h | h
        · exfalso
          apply hne
          have : t.year = 1 := by omega
          cases t
          simp_all
        · exact h
      unfold nextDay
      dsimp only
      rw [if_neg (by simp [daysInMonth]), if_neg (by norm_num)]
      have hyy : t.year - 1 + 1 = t.year := by omega
      rw [hyy]
      cases t
      simp_all

/-- `prevDay` preserves validity away from the epoch. -/
theorem valid_prevDay {t : Date} (hv : Valid t) (hne : t ≠ ⟨1, 1, 1⟩) :
    Valid (prevDay t) := by
  obtain ⟨hy, hm1, hm2, hd1, hd2⟩ := hv
  unfold prevDay
  by_cases hd : 1 < t.day
  · rw [if_pos hd]
    exact ⟨hy, hm1, hm2, by dsimp only; omega, by dsimp only; omega⟩
  · rw [if_neg hd]
    by_cases hm : 1 < t.month
    · rw [if_pos hm]
      refine ⟨hy, by dsimp only; omega, by dsimp only; omega,
        ?_, le_refl _⟩
      dsimp only
      exact one_le_daysInMonth (by omega) (by omega)
    · rw [if_neg hm]
      have hy2 : 2 ≤ t.year := by
        rcases Nat.lt_or_ge t.year 2 with h | h
        · exfalso
          apply hne
          have hy1 : t.year = 1 := by omega
          have hm1' : t.month = 1 := by omega
          have hd1' : t.day = 1 := by omega
          cases t
          simp_all
        · exact h
      exact ⟨by dsimp only; omega, by norm_num, by norm_num, by norm_num,
        by simp [daysInMonth]⟩

theorem one_le_ord {t : Date} (hv : Valid t) : 1 ≤ ord t := by
  obtain ⟨hy, hm1, hm2, hd1, hd2⟩ := hv
  unfold ord
  omega

theorem ord_epoch : ord ⟨1, 1, 1⟩ = 1 := by
  simp [ord, leapCount, daysBeforeMonth]

theorem ne_epoch_of_ord {t : Date} (h : 2 ≤ ord t) : t ≠ ⟨1, 1, 1⟩ := by
  intro hEq
  rw [hEq, ord_epoch] at h
  omega

/-- Iterating `prevDay` `k` times from a valid date that has at least
`k + 1` ordinal days of room stays valid and lowers the ordinal by `k`. -/
theorem prevDay_iterate {k : Nat} {t : Date} (hv : Valid t)
    (hroom : k + 1 ≤ ord t) :
    Valid (prevDay^[k] t) ∧ ord (prevDay^[k] t) + k = ord t := by
  induction k generalizing t with
  | zero => exact ⟨hv, by simp⟩
  | succ n ih =>
    have hne : t ≠ ⟨1, 1, 1⟩ := ne_epoch_of_ord (by omega)
    have hvp : Valid (prevDay t) := valid_prevDay hv hne
    have hop : ord (prevDay t) + 1 = ord t := by
      have := ord_nextDay hvp
      rw [nextDay_prevDay hv hne] at this
      omega
    rw [Function.iterate_succ_apply]
    obtain ⟨h1, h2⟩ := ih hvp (by omega)
    exact ⟨h1, by omega⟩

theorem addDays_succ (t : Date) (k : Nat) :
    addDays t (k + 1) = nextDay (addDays t k) :=
  Function.iterate_succ_apply' nextDay k t

theorem valid_addDays {t : Date} (n : Nat) (hv : Valid t) :
    Valid (addDays t n) := by
  induction n with
  | zero => simpa [addDays]
  | succ k ih =>
    rw [addDays_succ]
    exact valid_nextDay ih

theorem ord_addDays {t : Date} (n : Nat) (hv : Valid t) :
    ord (addDays t n) = ord t + n := by
  induction n with
  | zero => simp [addDays]
  | succ k ih =>
    rw [addDays_succ, ord_nextDay (valid_addDays k hv), ih, Nat.add_assoc]

theorem addDays_add (t : Date) (a b : Nat) :
    addDays t (a + b) = addDays (addDays t a) b := by
  unfold addDays
  rw [Nat.add_comm a b, Function.iterate_add_apply]

/-- The year-replacement half of `relativedelta(years=1)` applied to a
valid date of year at least 2 is valid. -/
theorem valid_yearBack {t : Date} (hv : Valid t) (hy : 2 ≤ t.year) :
    Valid (⟨t.year - 1, t.month,
      min t.day (daysInMonth (t.year - 1) t.month)⟩ : Date) := by
  obtain ⟨hy1, hm1, hm2, hd1, hd2⟩ := hv
  refine ⟨by dsimp only; omega, by dsimp only; omega, by dsimp only; omega,
    ?_, by dsimp only; omega⟩
  dsimp only
  exact le_min hd1 (one_le_daysInMonth hm1 hm2)

theorem daysBeforeMonth_back (y m : Nat) :
    daysBeforeMonth (y - 1) m ≤
      daysBeforeMonth y m + (if isLeap (y - 1) then 1 else 0) := by
  unfold daysBeforeMonth
  by_cases h2 : 2 < m
  · cases hL : isLeap (y - 1) <;> cases hL' : isLeap y <;>
      simp [h2, hL, hL']
  · cases hL : isLeap (y - 1) <;> cases hL' : isLeap y <;>
      simp [h2, hL, hL']

/-- Going back one year (with February clamping) moves the ordinal back
by at least 365 days. -/
theorem ord_yearBack_le {t : Date} (hv : Valid t) (hy : 2 ≤ t.year) :
    ord (⟨t.year - 1, t.month,
      min t.day (daysInMonth (t.year - 1) t.month)⟩ : Date) + 365 ≤ ord t := by
  obtain ⟨hy1, hm1, hm2, hd1, hd2⟩ := hv
  unfold ord
  dsimp only
  obtain ⟨z, hz⟩ : ∃ z, t.year = z + 2 := ⟨t.year - 2, by omega⟩
  rw [hz]
  simp only [show z + 2 - 1 = z + 1 from by omega]
  simp only [show z + 1 - 1 = z from by omega]
  have hsucc := leapCount_succ z
  have hback := daysBeforeMonth_back (z + 2) t.month
  rw [show z + 2 - 1 = z + 1 from by omega] at hback
  have hmin : min t.day (daysInMonth (z + 1) t.month) ≤ t.day := min_le_left _ _
  cases hL : isLeap (z + 1) <;>
    simp only [hL, if_true, if_false] at hsucc hback <;> omega

theorem daysBeforeMonth_add_dim_le {y m m' : Nat} (h1 : 1 ≤ m) (h : m < m')
    (h2 : m' ≤ 12) :
    daysBeforeMonth y m + daysInMonth y m ≤ daysBeforeMonth y m' := by
  induction m' with
  | zero => omega
  | succ n ih =>
    rcases Nat.lt_or_ge m n with hlt | hge
    · have hstep := daysBeforeMonth_succ y (m := n) (by omega) (by omega)
      have := ih hlt (by omega)
      omega
    · have hmn : m = n := by omega
      subst hmn
      exact le_of_eq (daysBeforeMonth_succ y h1 (by omega)).symm

theorem daysBeforeMonth_12_le (y : Nat) : daysBeforeMonth y 12 ≤ 335 := by
  cases hL : isLeap y <;> simp [daysBeforeMonth, hL]

/-- A valid date's ordinal does not exceed the ordinal of December 31 of
its year. -/
theorem ord_le_year_end {t : Date} (hv : Valid t) :
    ord t ≤ 365 * t.year + leapCount t.year := by
  obtain ⟨hy, hm1, hm2, hd1, hd2⟩ := hv
  obtain ⟨z, hz⟩ : ∃ z, t.year = z + 1 := ⟨t.year - 1, by omega⟩
  have hsucc := leapCount_succ z
  have hbound : daysBeforeMonth t.year t.month + t.day ≤
      365 + (if isLeap t.year then 1 else 0) := by
    by_cases hm : t.month = 12
    · have h12 := daysBeforeMonth_12_add t.year
      rw [hm]
      have hdim : t.day ≤ daysInMonth t.year 12 := hm ▸ hd2
      omega
    · have hle := daysBeforeMonth_add_dim_le (y := t.year) hm1
        (show t.month < 12 by omega) (le_refl 12)
      have h335 := daysBeforeMonth_12_le t.year
      omega
  unfold ord
  rw [hz] at hbound ⊢
  simp only [Nat.add_sub_cancel]
  omega

/-- `ord` is strictly monotone for the chronological order on valid
dates. -/
theorem ord_lt_of_dateLT {a b : Date} (hva : Valid a) (hvb : Valid b)
    (h : dateLT a b) : ord a < ord b := by
  obtain ⟨hya, hma1, hma2, hda1, hda2⟩ := hva
  obtain ⟨hyb, hmb1, hmb2, hdb1, hdb2⟩ := hvb
  rcases h with hy | ⟨hyEq, hm | ⟨hmEq, hd⟩⟩
  · have hA : ord a ≤ 365 * a.year + leapCount a.year :=
      ord_le_year_end ⟨hya, hma1, hma2, hda1, hda2⟩
    have hB : 365 * a.year + leapCount a.year < ord b := by
      unfold ord
      have hmono : leapCount a.year ≤ leapCount (b.year - 1) :=
        leapCount_mono (by omega)
      have hnn : 0 ≤ daysBeforeMonth b.year b.month := Nat.zero_le _
      omega
    omega
  · have k1 := hda2
    have k2 := daysBeforeMonth_add_dim_le (y := a.year) hma1 hm hmb2
    unfold ord
    rw [hyEq] at k1 k2 ⊢
    omega
  · unfold ord
    rw [hyEq, hmEq]
    omega

/-- `ord` is injective on valid dates. -/
theorem ord_inj_valid {a b : Date} (hva : Valid a) (hvb : Valid b)
    (h : ord a = ord b) : a = b := by
  by_contra hne
  have htri : dateLT a b ∨ dateLT b a := by
    unfold dateLT
    cases a
    cases b
    simp only [Date.mk.injEq, not_and] at hne ⊢
    omega
  rcases htri with h' | h'
  · exact absurd h (ne_of_lt (ord_lt_of_dateLT hva hvb h'))
  · exact absurd h.symm (ne_of_lt (ord_lt_of_dateLT hvb hva h'))

/-- `lastYear` produces a valid date at least 372 days before `today`
(365 from the year step, 7 from the day step). -/
theorem lastYear_valid_ord {t : Date} (hv : Valid t) (hy : 3 ≤ t.year) :
    Valid (lastYear t) ∧ ord (lastYear t) + 372 ≤ ord t := by
  have hyb := valid_yearBack hv (by omega)
  have hyble := ord_yearBack_le hv (by omega)
  have hybord : 366 ≤ ord (⟨t.year - 1, t.month,
      min t.day (daysInMonth (t.year - 1) t.month)⟩ : Date) := by
    obtain ⟨h1, h2, h3, h4, h5⟩ := hyb
    unfold ord
    dsimp only at h1 h4 ⊢
    have : 1 ≤ t.year - 1 - 1 := by omega
    omega
  unfold lastYear
  obtain ⟨h1, h2⟩ := prevDay_iterate (k := 7) hyb (by omega)
  exact ⟨h1, by omega⟩

theorem weekdayName_sunday_iff (t : Date) :
    weekdayName t = "Sunday" ↔ ord t % 7 = 0 := by
  unfold weekdayName
  have h : ord t % 7 < 7 := Nat.mod_lt _ (by norm_num)
  generalize hk : ord t % 7 = k at h ⊢
  interval_cases k <;> decide

/-- Once the skip flag is cleared, every remaining offset is emitted. -/
theorem windowGo_false_eq (ly : Date) (l : List Nat) :
    windowGo ly false l = l.map (addDays ly) := by
  induction l with
  | nil => rfl
  | cons i is ih => simp [windowGo, ih]

/-- With the skip flag set, the loop drops offsets until the first one
whose day is a Sunday and emits everything from there on. -/
theorem windowGo_true_eq (ly : Date) (hv : Valid ly) (k : Nat) :
    ∀ j : Nat, j ≤ (7 - ord ly % 7) % 7 → (7 - ord ly % 7) % 7 < j + k →
      windowGo ly true (List.range' j k) =
        (List.range' ((7 - ord ly % 7) % 7)
          (j + k - (7 - ord ly % 7) % 7)).map (addDays ly) := by
  induction k with
  | zero =>
    intro j hj hlt
    omega
  | succ n ih =>
    intro j hj hlt
    by_cases hje : j = (7 - ord ly % 7) % 7
    · have hsun : weekdayName (addDays ly j) = "Sunday" := by
        rw [weekdayName_sunday_iff, ord_addDays _ hv]
        omega
      rw [List.range'_succ]
      simp only [windowGo, hsun, ne_eq, not_true_eq_false, and_false, if_false]
      rw [windowGo_false_eq]
      have harg : j + (n + 1) - (7 - ord ly % 7) % 7 = n + 1 := by omega
      rw [harg, ← hje, List.range'_succ, List.map_cons]
    · have hjlt : j < (7 - ord ly % 7) % 7 := lt_of_le_of_ne hj hje
      have hnot : ¬ weekdayName (addDays ly j) = "Sunday" := by
        rw [weekdayName_sunday_iff, ord_addDays _ hv]
        omega
      rw [List.range'_succ]
      simp only [windowGo, ne_eq, hnot, not_false_eq_true, and_true, if_pos rfl]
      rw [ih (j + 1) (by omega) (by omega)]
      have harg2 : j + 1 + n - (7 - ord ly % 7) % 7 =
          j + (n + 1) - (7 - ord ly % 7) % 7 := by omega
      rw [harg2, if_pos trivial]

/-- C5: for every (valid, not too early) `today`, the window produced by
`main` consists of the consecutive calendar days from a start `ws` to
`today` inclusive, where `ws` is the first Sunday at or after
`today − 1 year − 7 days`; each of these days is entered into the
contribution map with count 0. -/
theorem claim_C5_window_shape (today : Date) (hv : Valid today)
    (hy : 3 ≤ today.year) :
    ∃ ws : Date,
      windowDays today =
        (List.range (ord today + 1 - ord ws)).map (addDays ws) ∧
      weekdayName ws = "Sunday" ∧
      ord (lastYear today) ≤ ord ws ∧
      ord ws < ord (lastYear today) + 7 ∧
      (windowDays today).head? = some ws ∧
      (windowDays today).getLast? = some today := by
  obtain ⟨hlyv, hlyord⟩ := lastYear_valid_ord hv hy
  have hrange :
      windowDays today = windowGo (lastYear today) true
        (List.range' 0 (ord today + 1 - ord (lastYear today))) := by
    unfold windowDays
    dsimp only
    rw [show (((ord today : ℤ) - (ord (lastYear today) : ℤ)) + 1).toNat =
        ord today + 1 - ord (lastYear today) from by omega,
      List.range_eq_range']
  set ly := lastYear today with hly
  set i0 := (7 - ord ly % 7) % 7 with hi0
  have hi0lt : i0 < 7 := by omega
  have hmain := windowGo_true_eq ly hlyv (ord today + 1 - ord ly) 0
    (by omega) (by omega)
  simp only [Nat.zero_add] at hmain
  set ws := addDays ly i0 with hws
  have hwsord : ord ws = ord ly + i0 := ord_addDays _ hlyv
  have hwsv : Valid ws := valid_addDays _ hlyv
  have hshift : (List.range' i0 (ord today + 1 - ord ly - i0)).map (addDays ly) =
      (List.range (ord today + 1 - ord ws)).map (addDays ws) := by
    rw [List.range'_eq_map_range, List.map_map]
    have hlen : ord today + 1 - ord ly - i0 = ord today + 1 - ord ws := by omega
    rw [hlen]
    refine List.map_congr_left ?_
    intro j _
    show addDays ly (i0 + j) = addDays ws j
    rw [addDays_add]
  have hwd : windowDays today =
      (List.range (ord today + 1 - ord ws)).map (addDays ws) := by
    rw [hrange, hmain, ← hi0, hshift]
  have hsun : weekdayName ws = "Sunday" := by
    rw [weekdayName_sunday_iff, hwsord]
    omega
  obtain ⟨K, hK⟩ : ∃ K, ord today + 1 - ord ws = K + 1 :=
    ⟨ord today - ord ws, by omega⟩
  have hhead : (windowDays today).head? = some ws := by
    rw [hwd, hK, List.range_succ_eq_map]
    simp [addDays]
  have hlast : (windowDays today).getLast? = some today := by
    rw [hwd, hK, List.range_succ, List.map_append, List.map_singleton,
      List.getLast?_concat]
    have hvk : Valid (addDays ws K) := valid_addDays _ hwsv
    have hok : ord (addDays ws K) = ord today := by
      rw [ord_addDays _ hwsv]
      omega
    rw [ord_inj_valid hvk hv hok]
  exact ⟨ws, hwd, hsun, by omega, by omega, hhead, hlast⟩

theorem claim_C5_witness :
    ∃ ws : Date,
      windowDays (⟨2016, 3, 5⟩ : Date) =
        (List.range (ord (⟨2016, 3, 5⟩ : Date) + 1 - ord ws)).map (addDays ws) ∧
      weekdayName ws = "Sunday" ∧
      ord (lastYear (⟨2016, 3, 5⟩ : Date)) ≤ ord ws ∧
      ord ws < ord (lastYear (⟨2016, 3, 5⟩ : Date)) + 7 ∧
      (windowDays (⟨2016, 3, 5⟩ : Date)).head? = some ws ∧
      (windowDays (⟨2016, 3, 5⟩ : Date)).getLast? =
        some (⟨2016, 3, 5⟩ : Date) :=
  claim_C5_window_shape _ (by decide) (by norm_num)

/-- C8: an empty event set — including the case of an author filter that
matches nothing, which makes git return empty output — takes the
`EmptyResult` path: the reported outcome with a clean zero exit and no
grid. -/
theorem claim_C8_empty_events (today : Date) (sbd : Option String) :
    runPipeline today sbd [] = RunResult.emptyResult ∧
    exitCode (runPipeline today sbd []) = 0 ∧
    gridOf (runPipeline today sbd []) = none := by
  refine ⟨rfl, rfl, rfl⟩

end Githeat
